import Mathlib

/-!
Shallow embedding of the background processing / caching subsystem of the
thunderclerk-ai Thunderbird extension (src/cache.js, src/processor.js,
src/utils.js, src/background.js), together with proofs of the spec claims.

JavaScript strings are modelled as `List Char` (Lean `String` at the API
boundary); JS numbers used as timestamps are modelled as `Int`
(`Date.now()` values; the subtraction `now - meta.ts` in cache cleanup is
ordinary signed arithmetic).  `JSON.parse` is modelled by a recursive
descent parser `jsonParse` implementing the JSON grammar accepted by the
JavaScript builtin: the exceptions of the builtin are modelled by `none`.
Two deliberate simplifications of `jsonParse`, neither observable by any
claim in scope: numbers are kept as their source lexeme (no claim compares
numeric values), and `\uXXXX` escapes denoting lone UTF-16 surrogates map
to the default character (no input in scope contains surrogates).  Object
member insertion follows the JS semantics for string keys: a duplicate key
overwrites in place, a new key is appended (the JS reordering of
integer-like keys is noted but not modelled; no key in scope is numeric).
-/

namespace ThunderClerk

/-- A JSON value, as produced by the modelled `JSON.parse`. -/
inductive Json where
  | null : Json
  | bool (b : Bool) : Json
  | num (lexeme : String) : Json
  | str (s : String) : Json
  | arr (elems : List Json) : Json
  | obj (members : List (String × Json)) : Json

/-- JSON insignificant whitespace: space, tab, line feed, carriage return. -/
def jsonWsChar (c : Char) : Bool :=
  c = ' ' || c = '\t' || c = '\n' || c = '\r'

/-- Skip leading JSON whitespace. -/
def skipWs : List Char → List Char
  | [] => []
  | c :: rest => if jsonWsChar c then skipWs rest else c :: rest

/-- Value of a hexadecimal digit, if the character is one. -/
def hexDigitVal (c : Char) : Option Nat :=
  if '0' ≤ c ∧ c ≤ '9' then some (c.toNat - '0'.toNat)
  else if 'a' ≤ c ∧ c ≤ 'f' then some (c.toNat - 'a'.toNat + 10)
  else if 'A' ≤ c ∧ c ≤ 'F' then some (c.toNat - 'A'.toNat + 10)
  else none

/-- Body of a JSON string literal, after the opening quote: returns the
decoded characters and the remaining input after the closing quote. -/
def parseStringBody : List Char → Option (List Char × List Char)
  | [] => none
  | '"' :: rest => some ([], rest)
  | '\\' :: rest =>
    match rest with
    | '"' :: r => (parseStringBody r).map (fun p => ('"' :: p.1, p.2))
    | '\\' :: r => (parseStringBody r).map (fun p => ('\\' :: p.1, p.2))
    | '/' :: r => (parseStringBody r).map (fun p => ('/' :: p.1, p.2))
    | 'b' :: r => (parseStringBody r).map (fun p => (Char.ofNat 8 :: p.1, p.2))
    | 'f' :: r => (parseStringBody r).map (fun p => (Char.ofNat 12 :: p.1, p.2))
    | 'n' :: r => (parseStringBody r).map (fun p => ('\n' :: p.1, p.2))
    | 'r' :: r => (parseStringBody r).map (fun p => (Char.ofNat 13 :: p.1, p.2))
    | 't' :: r => (parseStringBody r).map (fun p => ('\t' :: p.1, p.2))
    | 'u' :: h1 :: h2 :: h3 :: h4 :: r =>
      match hexDigitVal h1, hexDigitVal h2, hexDigitVal h3, hexDigitVal h4 with
      | some a, some b, some c, some d =>
        (parseStringBody r).map
          (fun p => (Char.ofNat (a * 4096 + b * 256 + c * 16 + d) :: p.1, p.2))
      | _, _, _, _ => none
    | _ => none
  | c :: rest =>
    if c.toNat < 32 then none
    else (parseStringBody rest).map (fun p => (c :: p.1, p.2))

/-- Longest leading run of decimal digits. -/
def takeDigits (cs : List Char) : List Char × List Char :=
  cs.span (fun c => c.isDigit)

/-- Optional exponent part of a JSON number; `acc` is the lexeme so far. -/
def parseExp (acc : List Char) (cs : List Char) : Option (List Char × List Char) :=
  match cs with
  | e :: r =>
    if e = 'e' ∨ e = 'E' then
      let (es, r1) := match r with
        | s :: r2 => if s = '+' ∨ s = '-' then ([e, s], r2) else ([e], r)
        | [] => ([e], r)
      let (ds, r2) := takeDigits r1
      if ds.isEmpty then none else some (acc ++ es ++ ds, r2)
    else some (acc, cs)
  | [] => some (acc, cs)

/-- Optional fraction part of a JSON number, then the exponent part. -/
def parseFracExp (acc : List Char) (cs : List Char) : Option (List Char × List Char) :=
  match cs with
  | '.' :: r =>
    let (ds, r2) := takeDigits r
    if ds.isEmpty then none else parseExp (acc ++ '.' :: ds) r2
  | _ => parseExp acc cs

/-- JSON number literal: `-? (0 | [1-9][0-9]*) (. [0-9]+)? ([eE][+-]?[0-9]+)?`.
The lexeme is kept verbatim. -/
def parseNumber (cs : List Char) : Option (List Char × List Char) :=
  let (sgn, cs1) := match cs with
    | '-' :: r => ((['-'] : List Char), r)
    | _ => (([] : List Char), cs)
  match cs1 with
  | '0' :: r => parseFracExp (sgn ++ ['0']) r
  | c :: r =>
    if c.isDigit then
      let (ds, r2) := takeDigits r
      parseFracExp (sgn ++ c :: ds) r2
    else none
  | [] => none

/-- JS object member insertion: a duplicate string key overwrites its value
in place, a new key is appended at the end. -/
def objInsert (ms : List (String × Json)) (k : String) (v : Json) :
    List (String × Json) :=
  match ms with
  | [] => [(k, v)]
  | (k0, v0) :: rest =>
    if k0 = k then (k0, v) :: rest else (k0, v0) :: objInsert rest k v

mutual

/-- One JSON value, fuelled recursive descent.  The fuel only bounds the
recursion; `jsonParse` supplies enough for any input. -/
def parseValue (fuel : Nat) (cs : List Char) : Option (Json × List Char) :=
  match fuel with
  | 0 => none
  | fuel' + 1 =>
    match skipWs cs with
    | '"' :: rest =>
      (parseStringBody rest).map (fun p => (Json.str (String.mk p.1), p.2))
    | '\x7b' :: rest =>
      let cs2 := skipWs rest
      match cs2 with
      | '\x7d' :: r => some (Json.obj [], r)
      | _ => parseMembers fuel' cs2 []
    | '[' :: rest =>
      let cs2 := skipWs rest
      match cs2 with
      | ']' :: r => some (Json.arr [], r)
      | _ => parseElems fuel' cs2 []
    | 't' :: 'r' :: 'u' :: 'e' :: rest => some (Json.bool true, rest)
    | 'f' :: 'a' :: 'l' :: 's' :: 'e' :: rest => some (Json.bool false, rest)
    | 'n' :: 'u' :: 'l' :: 'l' :: rest => some (Json.null, rest)
    | c :: rest =>
      if c = '-' ∨ c.isDigit then
        (parseNumber (c :: rest)).map (fun p => (Json.num (String.mk p.1), p.2))
      else none
    | [] => none

/-- Members of a JSON object, first member not yet consumed. -/
def parseMembers (fuel : Nat) (cs : List Char) (acc : List (String × Json)) :
    Option (Json × List Char) :=
  match fuel with
  | 0 => none
  | fuel' + 1 =>
    match skipWs cs with
    | '"' :: rest =>
      match parseStringBody rest with
      | none => none
      | some (key, r1) =>
        match skipWs r1 with
        | ':' :: r2 =>
          match parseValue fuel' r2 with
          | none => none
          | some (v, r3) =>
            let acc' := objInsert acc (String.mk key) v
            match skipWs r3 with
            | ',' :: r4 => parseMembers fuel' r4 acc'
            | '\x7d' :: r4 => some (Json.obj acc', r4)
            | _ => none
        | _ => none
    | _ => none

/-- Elements of a JSON array, first element not yet consumed. -/
def parseElems (fuel : Nat) (cs : List Char) (acc : List Json) :
    Option (Json × List Char) :=
  match fuel with
  | 0 => none
  | fuel' + 1 =>
    match parseValue fuel' cs with
    | none => none
    | some (v, r1) =>
      match skipWs r1 with
      | ',' :: r2 => parseElems fuel' r2 (acc ++ [v])
      | ']' :: r2 => some (Json.arr (acc ++ [v]), r2)
      | _ => none

end

/-- Model of the JavaScript `JSON.parse` builtin: parse one JSON value,
require only whitespace after it; an exception is modelled as `none`.
Two fuel units per input character always suffice: every other fuel step
consumes at least one input character. -/
def jsonParseList (cs : List Char) : Option Json :=
  match parseValue (2 * cs.length + 2) cs with
  | some (v, rest) => if (skipWs rest).isEmpty then some v else none
  | none => none

/-- `JSON.parse` on a Lean `String`. -/
def jsonParse (s : String) : Option Json :=
  jsonParseList s.data

/-- Member access `v.field` on a parsed object (first binding wins, as in a
JS object built by `objInsert`). -/
def jsGetField (v : Json) (k : String) : Option Json :=
  match v with
  | Json.obj ms => (ms.find? (fun m => m.1 = k)).map (·.2)
  | _ => none

/-! ### src/utils.js — `escapeJSONControlChars` and `extractJSON`

`extractJSON` first strips a markdown code fence with the two JS regex
replacements `text.replace(/^```(?:json)?\s*/im, "").replace(/\s*```\s*$/m, "")`
and trims the result; the two non-global replacements (leftmost match
removed, greedy with backtracking) are modelled by `stripFenceOpen` and
`stripFenceClose` below. -/

/-- The JS `\s` character class (also the JS `trim` set). -/
def jsWhitespace (c : Char) : Bool :=
  c = ' ' || c = '\t' || c = '\n' || c = '\r' ||
  c.toNat = 0xb || c.toNat = 0xc || c.toNat = 0xa0 || c.toNat = 0x1680 ||
  (0x2000 ≤ c.toNat && c.toNat ≤ 0x200a) || c.toNat = 0x2028 ||
  c.toNat = 0x2029 || c.toNat = 0x202f || c.toNat = 0x205f ||
  c.toNat = 0x3000 || c.toNat = 0xfeff

/-- Length of the maximal leading run of JS whitespace. -/
def wsRun (cs : List Char) : Nat :=
  (cs.takeWhile jsWhitespace).length

/-- JS `String.prototype.trim`. -/
def jsTrim (cs : List Char) : List Char :=
  ((cs.dropWhile jsWhitespace).reverse.dropWhile jsWhitespace).reverse

/-- Match of `` /^```(?:json)?\s*/i `` at a line-start position: returns the
match length.  The optional `json` is case-insensitive and greedy; the
trailing `\s*` is greedy (no backtracking can be needed after it). -/
def matchFenceOpenAt (cs : List Char) : Option Nat :=
  match cs with
  | '`' :: '`' :: '`' :: rest =>
    let (jlen, after) : Nat × List Char :=
      match rest with
      | a :: b :: c :: d :: r =>
        if a.toLower = 'j' ∧ b.toLower = 's' ∧ c.toLower = 'o' ∧ d.toLower = 'n'
        then (4, r) else (0, rest)
      | _ => (0, rest)
    some (3 + jlen + wsRun after)
  | _ => none

/-- A JS LineTerminator (where the `m` flag's `^` and `$` anchor). -/
def jsLineTerminator (c : Char) : Bool :=
  c = '\n' || c.toNat = 0xd || c.toNat = 0x2028 || c.toNat = 0x2029

/-- `text.replace(/^```(?:json)?\s*/im, "")`: remove the leftmost line-start
fence-open match, if any.  `lineStart` tracks whether the current position
follows a line terminator (or is the start of the string). -/
def stripFenceOpenAux : List Char → Bool → List Char
  | [], _ => []
  | c :: rest, lineStart =>
    match (if lineStart then matchFenceOpenAt (c :: rest) else none) with
    | some n => (c :: rest).drop n
    | none => c :: stripFenceOpenAux rest (jsLineTerminator c)

/-- First regex replacement of `extractJSON`. -/
def stripFenceOpen (cs : List Char) : List Char :=
  stripFenceOpenAux cs true

/-- End-of-line position for `$` with the `m` flag: end of input or just
before a line terminator. -/
def atLineEnd (cs : List Char) : Bool :=
  match cs with
  | [] => true
  | c :: _ => jsLineTerminator c

/-- Backtracking search for the second `\s*` of `/\s*```\s*$/m`: largest
`k2` not exceeding the whitespace run of `rest` such that position `k2` is a
line end. -/
def fenceCloseK2 (rest : List Char) : Nat → Option Nat
  | 0 => if atLineEnd rest then some 0 else none
  | k2 + 1 =>
    if atLineEnd (rest.drop (k2 + 1)) then some (k2 + 1)
    else fenceCloseK2 rest k2

/-- Backtracking search for the first `\s*` of `/\s*```\s*$/m` at a fixed
start position: `k` counts down from the whitespace run. -/
def fenceCloseK (cs : List Char) : Nat → Option Nat
  | 0 =>
    match cs with
    | '`' :: '`' :: '`' :: rest => (fenceCloseK2 rest (wsRun rest)).map (3 + ·)
    | _ => none
  | k + 1 =>
    match cs.drop (k + 1) with
    | '`' :: '`' :: '`' :: rest =>
      match (fenceCloseK2 rest (wsRun rest)).map (fun n => k + 1 + 3 + n) with
      | some n => some n
      | none => fenceCloseK cs k
    | _ => fenceCloseK cs k

/-- Match of `/\s*```\s*$/m` at a position: returns the match length. -/
def matchFenceCloseAt (cs : List Char) : Option Nat :=
  fenceCloseK cs (wsRun cs)

/-- `text.replace(/\s*```\s*$/m, "")`: remove the leftmost fence-close
match, if any. -/
def stripFenceClose : List Char → List Char
  | [] => []
  | c :: rest =>
    match matchFenceCloseAt (c :: rest) with
    | some n => (c :: rest).drop n
    | none => c :: stripFenceClose rest

/-- Lowercase hexadecimal digit, as produced by JS `Number.toString(16)`. -/
def hexLower (n : Nat) : Char :=
  if n < 10 then Char.ofNat (48 + n) else Char.ofNat (87 + n)

/-- `code.toString(16).padStart(4, "0")` for `code < 0x20`. -/
def hex4 (n : Nat) : List Char :=
  [hexLower (n / 4096 % 16), hexLower (n / 256 % 16),
   hexLower (n / 16 % 16), hexLower (n % 16)]

/-- Loop of `escapeJSONControlChars` (src/utils.js): a single left-to-right
scan tracking the in-string state; a bare control character inside a string
becomes its `\uXXXX` escape; a backslash inside a string copies itself and
the following character verbatim. -/
def escapeLoop : Bool → List Char → List Char
  | _, [] => []
  | true, '"' :: rest => '"' :: escapeLoop false rest
  | true, '\\' :: rest =>
    match rest with
    | [] => ['\\']
    | c2 :: rest2 => '\\' :: c2 :: escapeLoop true rest2
  | true, c :: rest =>
    if c.toNat < 32 then '\\' :: 'u' :: (hex4 c.toNat ++ escapeLoop true rest)
    else c :: escapeLoop true rest
  | false, '"' :: rest => '"' :: escapeLoop true rest
  | false, c :: rest => c :: escapeLoop false rest

/-- `escapeJSONControlChars` from src/utils.js. -/
def escapeJSONControlChars (cs : List Char) : List Char :=
  escapeLoop false cs

/-- First index of a character, as JS `indexOf` (`none` for `-1`). -/
def indexOfChar : List Char → Char → Option Nat
  | [], _ => none
  | x :: rest, c =>
    if x = c then some 0 else (indexOfChar rest c).map (· + 1)

/-- Brace-depth walk of `extractJSON`: not string-aware, exactly as the
source.  `depth` is the current nesting depth, `i` the current offset; the
offset of the brace that returns the depth to zero is returned. -/
def braceScan : List Char → Nat → Nat → Option Nat
  | [], _, _ => none
  | c :: rest, depth, i =>
    if c = '\x7b' then braceScan rest (depth + 1) (i + 1)
    else if c = '\x7d' then
      if depth = 1 then some i else braceScan rest (depth - 1) (i + 1)
    else braceScan rest depth (i + 1)

/-- The two failure signals of `extractJSON`. -/
inductive ExtractErr where
  | noJson : ExtractErr
  | unclosed : ExtractErr
deriving DecidableEq

/-- `extractJSON` from src/utils.js: strip a markdown fence, trim, find the
first `\x7b`, walk the brace depth to the matching close, and escape bare
control characters in the extracted slice.  The two `throw`s are the two
`ExtractErr` values. -/
def extractJSON (text : List Char) : Except ExtractErr (List Char) :=
  let fenced := jsTrim (stripFenceClose (stripFenceOpen text))
  match indexOfChar fenced '\x7b' with
  | none => Except.error ExtractErr.noJson
  | some start =>
    let fromStart := fenced.drop start
    match braceScan fromStart 0 0 with
    | none => Except.error ExtractErr.unclosed
    | some endOff => Except.ok (escapeJSONControlChars (fromStart.take (endOff + 1)))

/-! ### src/background.js — `repairAnalysisJSON` -/

/-- The closing-suffix list of `repairAnalysisJSON`, verbatim from the
source (duplicates included). -/
def closers : List String :=
  ["\x7d", "]\x7d", "]\x7d", "\"\x7d", "\"\x7d]", "\"\x7d]\x7d", "\"]\x7d",
   "]\x7d", "\x7d]\x7d", "]\x7d]\x7d", "\"]\x7d", "\"\x7d]\x7d", "\"\x7d]]\x7d"]

/-- Try every closing suffix on a prefix of the text, returning the first
successful parse. -/
def tryClosers (slice : List Char) : Option Json :=
  closers.findSome? (fun suf => jsonParseList (slice ++ suf.data))

/-- The backward-salvage loop of `repairAnalysisJSON`:
`for (let i = text.length; i > Math.max(0, text.length - 200); i--)`.
`k` counts the remaining iterations, `i` is the current prefix length. -/
def salvageLoop (text : List Char) : Nat → Nat → Option Json
  | 0, _ => none
  | k + 1, i =>
    match tryClosers (text.take i) with
    | some v => some v
    | none => salvageLoop text k (i - 1)

/-- `repairAnalysisJSON` from src/background.js: empty input and input with
no opening brace yield `null`; otherwise parse the text from the first
brace as-is, and on failure run the bounded backward-salvage loop (the loop
runs `min (length, 200)` iterations, i.e. `i` stays above
`max 0 (length - 200)`). -/
def repairAnalysisJSON (raw : String) : Option Json :=
  let cs := raw.data
  if cs.isEmpty then none
  else
    match indexOfChar cs '\x7b' with
    | none => none
    | some start =>
      let text := cs.drop start
      match jsonParseList text with
      | some v => some v
      | none => salvageLoop text (min text.length 200) text.length

/-- The text `repairAnalysisJSON` works on: the input from its first
opening brace (empty when there is none). -/
def repairText (raw : String) : List Char :=
  match indexOfChar raw.data '\x7b' with
  | some start => raw.data.drop start
  | none => []

/-! ### src/cache.js — the persistent result cache

`browser.storage.local` holds the index under the single key
`"_bgCacheIndex"` and one entry per message under `"cache_" + messageId`.
Since `"cache_" + id` is injective in `id` and never equals
`"_bgCacheIndex"`, the flat key space is modelled as two association lists
keyed by the message id: `index` (the `entries` map of the index record)
and `store` (the per-message entry records).  JS object keys are unique;
the association lists of any state reachable by the cache operations have
pairwise distinct keys.  Key insertion updates in place or appends, key
deletion removes the binding, mirroring JS property assignment and
`delete`.  Storage operations are modelled as reliable (their failure modes
are outside every claim in scope).  Payloads are an arbitrary type `α`.
Timestamps are `Int` (`Date.now()` is passed explicitly as `now`). -/

/-- First value bound to a key in an association list. -/
def lookupA {β : Type} : List (String × β) → String → Option β
  | [], _ => none
  | (k0, v0) :: rest, k => if k0 = k then some v0 else lookupA rest k

/-- JS property assignment on an object modelled as an association list:
update the binding in place if the key exists, else append. -/
def setA {β : Type} (l : List (String × β)) (k : String) (v : β) :
    List (String × β) :=
  match l with
  | [] => [(k, v)]
  | (k0, v0) :: rest =>
    if k0 = k then (k0, v) :: rest else (k0, v0) :: setA rest k v

/-- JS `delete obj[k]` on an object modelled as an association list. -/
def eraseA {β : Type} : List (String × β) → String → List (String × β)
  | [], _ => []
  | (k0, v0) :: rest, k =>
    if k0 = k then eraseA rest k else (k0, v0) :: eraseA rest k

/-- Sequential deletion of a list of keys (the removal loops of
`cacheCleanup`). -/
def eraseKeys {β : Type} (l : List (String × β)) (ks : List String) :
    List (String × β) :=
  ks.foldl eraseA l

/-- `CACHE_VERSION` from src/cache.js. -/
def CACHE_VERSION : Nat := 1

/-- Status field of an index record. -/
inductive CacheStatus where
  | ok : CacheStatus
  | error : CacheStatus
deriving DecidableEq

/-- An index record `\x7b ts, status \x7d`. -/
structure IndexMeta where
  ts : Int
  status : CacheStatus
deriving DecidableEq

/-- A stored entry `\x7b version, ts, raw \x7d`. -/
structure CacheEntry (α : Type) where
  version : Nat
  ts : Int
  raw : α

theorem CacheEntry.ext {α : Type} {a b : CacheEntry α} (h1 : a.version = b.version)
    (h2 : a.ts = b.ts) (h3 : a.raw = b.raw) : a = b := by
  cases a; cases b; simp_all

/-- The persistent cache state: the index `entries` map and the per-message
entry records. -/
structure CacheState (α : Type) where
  index : List (String × IndexMeta)
  store : List (String × CacheEntry α)

/-- The empty storage (what `_getCacheIndex` defaults to on first use). -/
def emptyCache (α : Type) : CacheState α := ⟨[], []⟩

/-- `cacheGet`: `null` when the entry is absent or its `version` differs
from `CACHE_VERSION`. -/
def cacheGet {α : Type} (s : CacheState α) (id : String) : Option (CacheEntry α) :=
  match lookupA s.store id with
  | none => none
  | some e => if e.version = CACHE_VERSION then some e else none

/-- `cacheSet`: write the entry with the current version and timestamp, and
update the index record to status ok, in the same operation. -/
def cacheSet {α : Type} (s : CacheState α) (id : String) (data : α) (now : Int) :
    CacheState α :=
  { index := setA s.index id { ts := now, status := CacheStatus.ok },
    store := setA s.store id { version := CACHE_VERSION, ts := now, raw := data } }

/-- `cacheHas`: a fresh-version entry exists. -/
def cacheHas {α : Type} (s : CacheState α) (id : String) : Bool :=
  match lookupA s.store id with
  | none => false
  | some e => e.version = CACHE_VERSION

/-- `cacheDelete`: remove both the entry and its index record. -/
def cacheDelete {α : Type} (s : CacheState α) (id : String) : CacheState α :=
  { index := eraseA s.index id, store := eraseA s.store id }

/-- `cacheSetError`: write only the index record (status error); the entry
store is untouched. -/
def cacheSetError {α : Type} (s : CacheState α) (id : String) (now : Int) :
    CacheState α :=
  { s with index := setA s.index id { ts := now, status := CacheStatus.error } }

/-- `cacheCleanup`: collect the ids of index records older than `maxAgeMs`
(in index iteration order), remove their entry keys and index records when
the list is nonempty, and return the number of ids removed. -/
def cacheCleanup {α : Type} (s : CacheState α) (now maxAgeMs : Int) :
    CacheState α × Nat :=
  let idsToRemove := (s.index.filter (fun p => now - p.2.ts > maxAgeMs)).map (·.1)
  if idsToRemove.isEmpty then (s, 0)
  else
    ({ index := eraseKeys s.index idsToRemove,
       store := eraseKeys s.store idsToRemove },
     idsToRemove.length)

/-- One cache mutation, for reasoning about arbitrary operation sequences. -/
inductive CacheOp (α : Type) where
  | set (id : String) (data : α) (now : Int) : CacheOp α
  | setError (id : String) (now : Int) : CacheOp α
  | del (id : String) : CacheOp α

/-- Apply one cache mutation. -/
def applyOp {α : Type} (s : CacheState α) : CacheOp α → CacheState α
  | CacheOp.set id data now => cacheSet s id data now
  | CacheOp.setError id now => cacheSetError s id now
  | CacheOp.del id => cacheDelete s id

/-- Run a sequence of cache mutations from a starting state. -/
def runOps {α : Type} (s : CacheState α) : List (CacheOp α) → CacheState α
  | [] => s
  | op :: rest => runOps (applyOp s op) rest

/-- The amended index-consistency invariant: an ok-status index record
guarantees a retrievable entry. -/
def okRetrievable {α : Type} (s : CacheState α) : Prop :=
  ∀ id meta, lookupA s.index id = some meta → meta.status = CacheStatus.ok →
    (cacheGet s id).isSome

/-- A concrete cache state with three ok entries aged 10 minutes, 2 days
and 10 days at `now = 864000000` (timestamps in milliseconds). -/
def cleanupDemoState : CacheState Nat :=
  { index := [("a", ⟨863400000, CacheStatus.ok⟩),
      ("b", ⟨691200000, CacheStatus.ok⟩), ("c", ⟨0, CacheStatus.ok⟩)],
    store := [("a", ⟨1, 863400000, 10⟩),
      ("b", ⟨1, 691200000, 20⟩), ("c", ⟨1, 0, 30⟩)] }

/-! ### src/processor.js — the background work queue

The module-level mutable state of src/processor.js is the record `BgState`;
`setTimeout` calls are modelled as emitted `Timer` values (delay plus what
the callback does); the external collaborators touched during one drain
attempt (mail store, inference server, `Date.now`) are an oracle
`DrainEnv`.  One drain attempt is modelled as an atomic step: the
interleavings possible at its `await` points mutate none of the state read
afterwards in the source, except that the claims treat the step as the spec
does — a single transition.  Settings reads, prompt construction, body
truncation and logging have no effect on the modelled state and are
omitted.  Storage is modelled as reliable, so the enclosing
`try/catch` of `processNextInQueue` is never entered by the modelled
operations.  `bgBackfill` (pure enqueue driver over the external mail
store) is outside every claim in scope and is not modelled. -/

/-- Queue slot `\x7b messageId, force \x7d`. -/
structure QItem where
  messageId : Nat
  force : Bool
deriving DecidableEq

/-- `BG_PROCESSOR_DELAY_MS` from src/processor.js. -/
def BG_PROCESSOR_DELAY_MS : Nat := 2000

/-- `BG_RETRY_DELAY_MS` from src/processor.js. -/
def BG_RETRY_DELAY_MS : Nat := 30000

/-- `BG_MIN_EMAIL_LENGTH` from src/processor.js. -/
def BG_MIN_EMAIL_LENGTH : Nat := 20

/-- What a scheduled `setTimeout` callback does. -/
inductive TimerAction where
  /-- `scheduleNext`s callback: run `processNextInQueue`. -/
  | drainNow : TimerAction
  /-- The 1s wait-for-manual-action retry: run `processNextInQueue`. -/
  | drainRetry : TimerAction
  /-- The retry-delay callback: clear `bgPaused`, then `scheduleNext`. -/
  | unpauseResume : TimerAction
deriving DecidableEq

/-- A scheduled `setTimeout`. -/
structure Timer where
  delayMs : Nat
  action : TimerAction
deriving DecidableEq

/-- The module-level state of src/processor.js plus the persistent cache it
writes through src/cache.js. -/
structure BgState (α : Type) where
  queue : List QItem
  processing : Bool
  paused : Bool
  enabled : Bool
  manualActionInFlight : Bool
  processedCount : Nat
  errorCount : Nat
  cache : CacheState α

/-- `scheduleNext`: schedule a drain attempt after the inter-item delay
unless busy, paused, disabled or idle. -/
def scheduleNext {α : Type} (s : BgState α) : List Timer :=
  if s.processing || s.paused || !s.enabled || s.queue.isEmpty then []
  else [⟨BG_PROCESSOR_DELAY_MS, TimerAction.drainNow⟩]

/-- `bgProcessorEnqueue`: a non-force enqueue of an already-queued id
returns before pushing (and before `scheduleNext`); otherwise the item is
appended and a drain attempt is scheduled. -/
def bgProcessorEnqueue {α : Type} (s : BgState α) (messageId : Nat)
    (force : Bool) : BgState α × List Timer :=
  if !force && s.queue.any (fun item => item.messageId = messageId) then (s, [])
  else
    let s' := { s with queue := s.queue ++ [⟨messageId, force⟩] }
    (s', scheduleNext s')

/-- `bgProcessorSetManualFlag`: set the flag; on clearing it, immediately
attempt to resume draining. -/
def bgProcessorSetManualFlag {α : Type} (s : BgState α) (active : Bool) :
    BgState α × List Timer :=
  let s' := { s with manualActionInFlight := active }
  if active then (s', []) else (s', scheduleNext s')

/-- `bgProcessorStop`: disable; the queue is left intact. -/
def bgProcessorStop {α : Type} (s : BgState α) : BgState α :=
  { s with enabled := false }

/-- External effects observed during one drain attempt. -/
structure DrainEnv where
  /-- `Date.now()` at the cache write. -/
  now : Int
  /-- `browser.messages.get` succeeds. -/
  msgExists : Bool
  /-- `extractTextBody` of the full message; `none` models `getFull` throwing. -/
  body : Option String
  /-- `callOllama` response; `none` models a thrown inference error. -/
  inference : Option String

/-- Result of one drain attempt: the new state, the timers it scheduled,
and whether an inference call was started. -/
structure DrainResult (α : Type) where
  state : BgState α
  timers : List Timer
  calledInference : Bool

/-- The placeholder payload cached for too-short emails. -/
def shortPayload : Json :=
  Json.obj [("summary", Json.str "(email too short to analyze)"),
    ("events", Json.arr []), ("tasks", Json.arr []),
    ("contacts", Json.arr []), ("tags", Json.arr []),
    ("reply", Json.str ""), ("forwardSummary", Json.str "")]

/-- Truthiness of a zero JSON number lexeme (every mantissa digit `0`). -/
def numLexIsZero (s : String) : Bool :=
  (s.data.takeWhile (fun c => c ≠ 'e' ∧ c ≠ 'E')).all
    (fun c => ¬ c.isDigit ∨ c = '0')

/-- JS truthiness of a parsed JSON value. -/
def jsTruthy (v : Json) : Bool :=
  match v with
  | Json.null => false
  | Json.bool b => b
  | Json.str s => ¬ s.isEmpty
  | Json.num lexeme => ¬ numLexIsZero lexeme
  | Json.arr _ => true
  | Json.obj _ => true

/-- `item.title || item.name || item.description || item.summary ||
item.label || ""`: first truthy field in the fallback priority list. -/
def previewFallback (ms : List (String × Json)) : Json :=
  match (["title", "name", "description", "summary", "label"]).findSome?
      (fun k => match lookupA ms k with
        | some v => if jsTruthy v then some v else none
        | none => none) with
  | some v => v
  | none => Json.str ""

/-- Normalization of one detected item: a string becomes
`\x7b preview: item \x7d`; an object with no truthy `preview` gets one from
the fallback list.  (Other item shapes are returned unchanged; the source
would fault on them under strict mode, and no payload in scope produces
them.) -/
def normalizeItem (item : Json) : Json :=
  match item with
  | Json.str s => Json.obj [("preview", Json.str s)]
  | Json.obj ms =>
    let truthyPreview := match lookupA ms "preview" with
      | some v => jsTruthy v
      | none => false
    if truthyPreview then Json.obj ms
    else Json.obj (objInsert ms "preview" (previewFallback ms))
  | other => other

/-- Normalize one of the `events`/`tasks`/`contacts` fields when it is an
array. -/
def normalizeKey (ms : List (String × Json)) (k : String) :
    List (String × Json) :=
  match lookupA ms k with
  | some (Json.arr items) => objInsert ms k (Json.arr (items.map normalizeItem))
  | _ => ms

/-- The item-preview normalization loop of `processNextInQueue`. -/
def normalizePreviews (v : Json) : Json :=
  match v with
  | Json.obj ms =>
    Json.obj (normalizeKey (normalizeKey (normalizeKey ms "events") "tasks") "contacts")
  | other => other

/-- `processNextInQueue` from src/processor.js, as one atomic step against
the oracle `env`.  Guard order, flag updates, the unshift on inference
failure and all cache writes mirror the source line by line. -/
def processNextInQueue (s : BgState Json) (env : DrainEnv) : DrainResult Json :=
  if s.processing || s.paused || !s.enabled || s.queue.isEmpty then
    ⟨s, [], false⟩
  else if s.manualActionInFlight then
    ⟨s, [⟨1000, TimerAction.drainRetry⟩], false⟩
  else
    match s.queue with
    | [] => ⟨s, [], false⟩
    | item :: rest =>
      let s1 := { s with processing := true, queue := rest }
      if !item.force && cacheHas s1.cache (toString item.messageId) then
        let s2 := { s1 with processing := false }
        ⟨s2, scheduleNext s2, false⟩
      else if !env.msgExists then
        let s2 := { s1 with processing := false }
        ⟨s2, scheduleNext s2, false⟩
      else
        match env.body with
        | none =>
          let s2 := { s1 with processing := false }
          ⟨s2, scheduleNext s2, false⟩
        | some emailBody =>
          if emailBody.length < BG_MIN_EMAIL_LENGTH then
            let s2 := { s1 with
              cache := cacheSet s1.cache (toString item.messageId) shortPayload env.now,
              processing := false }
            ⟨s2, scheduleNext s2, false⟩
          else
            match env.inference with
            | none =>
              let s2 := { s1 with
                errorCount := s1.errorCount + 1,
                paused := true,
                processing := false,
                queue := item :: rest }
              ⟨s2, [⟨BG_RETRY_DELAY_MS, TimerAction.unpauseResume⟩], true⟩
            | some raw =>
              let parsed : Option Json :=
                match extractJSON raw.data with
                | Except.ok js =>
                  match jsonParseList js with
                  | some v => some v
                  | none => repairAnalysisJSON raw
                | Except.error _ => repairAnalysisJSON raw
              match parsed with
              | some v =>
                let s2 := { s1 with
                  cache := cacheSet s1.cache (toString item.messageId)
                    (normalizePreviews v) env.now,
                  processedCount := s1.processedCount + 1,
                  processing := false }
                ⟨s2, scheduleNext s2, true⟩
              | none =>
                let s2 := { s1 with
                  cache := cacheSetError s1.cache (toString item.messageId) env.now,
                  errorCount := s1.errorCount + 1,
                  processing := false }
                ⟨s2, scheduleNext s2, true⟩

/-- The retry-delay `setTimeout` callback of the inference-failure path:
clear `bgPaused`, then `scheduleNext`. -/
def runUnpauseResume {α : Type} (s : BgState α) : BgState α × List Timer :=
  let s' := { s with paused := false }
  (s', scheduleNext s')

example : jsonParse "\x7b\"a\":\"b\"\x7d" = some (Json.obj [("a", Json.str "b")]) := rfl

example : jsonParse "\x7b\"a\":[1,true,null]\x7d"
    = some (Json.obj [("a", Json.arr [Json.num "1", Json.bool true, Json.null])]) := rfl

example : jsonParse "\x7b\"a\":\"x\" \x7d  " = some (Json.obj [("a", Json.str "x")]) := rfl

example : jsonParse "\x7b\"a\":1" = none := rfl

example : jsonParse "\x7b\"summary\":\"ok\",\"events\":[\x7b\"preview\":\"Team sync\"\x7d]\x7d"
    = some (Json.obj [("summary", Json.str "ok"),
        ("events", Json.arr [Json.obj [("preview", Json.str "Team sync")]])]) := rfl

example : extractJSON "\x7b\"body\":\"line one\nline two\"\x7d".data
    = Except.ok "\x7b\"body\":\"line one\\u000aline two\"\x7d".data := rfl

example : extractJSON "```json\n\x7b\"a\":1\x7d\n```".data
    = Except.ok "\x7b\"a\":1\x7d".data := rfl

example : extractJSON "Here is the JSON:\n\x7b\"a\":1\x7d".data
    = Except.ok "\x7b\"a\":1\x7d".data := rfl

example : extractJSON "no braces here".data = Except.error ExtractErr.noJson := rfl

example : extractJSON "\x7b\"a\":1".data = Except.error ExtractErr.unclosed := rfl

example : repairAnalysisJSON "\x7b\"summary\":\"ok\",\"events\":[\x7b\"preview\":\"Team sync\""
    = some (Json.obj [("summary", Json.str "ok"),
        ("events", Json.arr [Json.obj [("preview", Json.str "Team sync")]])]) := rfl

/-! ### Association-list lemmas -/

theorem lookupA_setA_self {β : Type} (l : List (String × β)) (k : String) (v : β) :
    lookupA (setA l k v) k = some v := by
  induction l with
  | nil => simp [setA, lookupA]
  | cons p rest ih =>
    obtain ⟨k0, v0⟩ := p
    by_cases h : k0 = k
    · simp [setA, h, lookupA]
    · simp [setA, h, lookupA, ih]

theorem lookupA_setA_ne {β : Type} (l : List (String × β)) {k k' : String} (v : β)
    (h : k' ≠ k) : lookupA (setA l k v) k' = lookupA l k' := by
  have h2 : ¬ k = k' := fun hk => h hk.symm
  induction l with
  | nil => simp [setA, lookupA, h2]
  | cons p rest ih =>
    obtain ⟨k0, v0⟩ := p
    by_cases h0 : k0 = k
    · subst h0
      simp [setA, lookupA, h2]
    · simp only [setA, if_neg h0, lookupA]
      rw [ih]

theorem lookupA_eraseA_self {β : Type} (l : List (String × β)) (k : String) :
    lookupA (eraseA l k) k = none := by
  induction l with
  | nil => simp [eraseA, lookupA]
  | cons p rest ih =>
    obtain ⟨k0, v0⟩ := p
    by_cases h : k0 = k
    · simpa [eraseA, h] using ih
    · simpa [eraseA, h, lookupA] using ih

theorem lookupA_eraseA_ne {β : Type} (l : List (String × β)) {k k' : String}
    (h : k' ≠ k) : lookupA (eraseA l k) k' = lookupA l k' := by
  have h2 : ¬ k = k' := fun hk => h hk.symm
  induction l with
  | nil => simp [eraseA, lookupA]
  | cons p rest ih =>
    obtain ⟨k0, v0⟩ := p
    by_cases h0 : k0 = k
    · subst h0
      simp [eraseA, lookupA, h2, ih]
    · simp only [eraseA, if_neg h0, lookupA]
      by_cases h1 : k0 = k'
      · simp [h1]
      · simp [h1, ih]

theorem lookupA_eraseKeys_not_mem {β : Type} (l : List (String × β))
    {ks : List String} {k : String} (hk : ¬ k ∈ ks) :
    lookupA (eraseKeys l ks) k = lookupA l k := by
  induction ks generalizing l with
  | nil => rfl
  | cons k0 rest ih =>
    have hk0 : k ≠ k0 := fun h => hk (h ▸ List.mem_cons_self k0 rest)
    have hrest : ¬ k ∈ rest := fun h => hk (List.mem_cons_of_mem k0 h)
    show lookupA (eraseKeys (eraseA l k0) rest) k = lookupA l k
    rw [ih (eraseA l k0) hrest, lookupA_eraseA_ne l hk0]

theorem lookupA_eraseKeys_mem {β : Type} (l : List (String × β))
    {ks : List String} {k : String} (hk : k ∈ ks) :
    lookupA (eraseKeys l ks) k = none := by
  induction ks generalizing l with
  | nil => simp at hk
  | cons k0 rest ih =>
    show lookupA (eraseKeys (eraseA l k0) rest) k = none
    by_cases hr : k ∈ rest
    · exact ih (eraseA l k0) hr
    · have hk0 : k = k0 := by
        rcases List.mem_cons.mp hk with h | h
        · exact h
        · exact absurd h hr
      subst hk0
      rw [lookupA_eraseKeys_not_mem (eraseA l k) hr, lookupA_eraseA_self]

theorem lookupA_mem {β : Type} {l : List (String × β)} {k : String} {v : β}
    (h : lookupA l k = some v) : (k, v) ∈ l := by
  induction l with
  | nil => simp [lookupA] at h
  | cons p rest ih =>
    obtain ⟨k0, v0⟩ := p
    by_cases h0 : k0 = k
    · subst h0
      simp [lookupA] at h
      simp [h]
    · simp only [lookupA, if_neg h0] at h
      exact List.mem_cons_of_mem _ (ih h)

/-- In a list with pairwise distinct keys, two members with the same key
are equal. -/
theorem eq_of_keysNodup {β : Type} {l : List (String × β)}
    (h : (l.map Prod.fst).Nodup) {p q : String × β}
    (hp : p ∈ l) (hq : q ∈ l) (hk : p.1 = q.1) : p = q := by
  induction l with
  | nil => simp at hp
  | cons x rest ih =>
    simp only [List.map_cons, List.nodup_cons] at h
    rcases List.mem_cons.mp hp with hp1 | hp1 <;>
      rcases List.mem_cons.mp hq with hq1 | hq1
    · rw [hp1, hq1]
    · exfalso
      apply h.1
      have hqm : q.1 ∈ List.map Prod.fst rest := List.mem_map.mpr ⟨q, hq1, rfl⟩
      rw [hp1] at hk
      rw [hk]
      exact hqm
    · exfalso
      apply h.1
      have hpm : p.1 ∈ List.map Prod.fst rest := List.mem_map.mpr ⟨p, hp1, rfl⟩
      rw [hq1] at hk
      rw [← hk]
      exact hpm
    · exact ih h.2 hp1 hq1

/-! ### Cache lemmas -/

theorem cacheGet_eq_some_iff {α : Type} (s : CacheState α) (id : String)
    (e : CacheEntry α) :
    cacheGet s id = some e ↔
      lookupA s.store id = some e ∧ e.version = CACHE_VERSION := by
  unfold cacheGet
  cases h : lookupA s.store id with
  | none => simp
  | some e0 =>
    show (if e0.version = CACHE_VERSION then some e0 else none) = some e ↔
      some e0 = some e ∧ e.version = CACHE_VERSION
    by_cases hv : e0.version = CACHE_VERSION
    · rw [if_pos hv]
      constructor
      · intro h1
        obtain rfl : e0 = e := Option.some.inj h1
        exact ⟨rfl, hv⟩
      · rintro ⟨h1, _⟩
        exact h1
    · rw [if_neg hv]
      constructor
      · intro h1
        simp at h1
      · rintro ⟨h1, h2⟩
        obtain rfl : e0 = e := Option.some.inj h1
        exact absurd h2 hv

theorem cacheHas_eq_true_iff {α : Type} (s : CacheState α) (id : String) :
    cacheHas s id = true ↔
      ∃ e, lookupA s.store id = some e ∧ e.version = CACHE_VERSION := by
  unfold cacheHas
  cases h : lookupA s.store id with
  | none => simp
  | some e0 => simp [decide_eq_true_eq]

theorem okRetrievable_applyOp {α : Type} {s : CacheState α}
    (h : okRetrievable s) (op : CacheOp α) : okRetrievable (applyOp s op) := by
  cases op with
  | set id data now =>
    intro id' meta hlook _
    by_cases hid : id' = id
    · subst hid
      have : cacheGet (cacheSet s id' data now) id'
          = some { version := CACHE_VERSION, ts := now, raw := data } := by
        unfold cacheGet cacheSet
        simp [lookupA_setA_self]
      simp [applyOp, this]
    · have hidx : lookupA (cacheSet s id data now).index id' = lookupA s.index id' := by
        unfold cacheSet
        exact lookupA_setA_ne _ _ hid
      have hst : lookupA (cacheSet s id data now).store id' = lookupA s.store id' := by
        unfold cacheSet
        exact lookupA_setA_ne _ _ hid
      simp only [applyOp] at hlook ⊢
      rw [hidx] at hlook
      have := h id' meta hlook ‹meta.status = CacheStatus.ok›
      unfold cacheGet at this ⊢
      rw [hst]
      exact this
  | setError id now =>
    intro id' meta hlook hok
    by_cases hid : id' = id
    · subst hid
      simp only [applyOp, cacheSetError] at hlook
      rw [lookupA_setA_self] at hlook
      obtain rfl : ({ ts := now, status := CacheStatus.error } : IndexMeta) = meta := by
        simpa using hlook
      simp at hok
    · simp only [applyOp, cacheSetError] at hlook ⊢
      rw [lookupA_setA_ne _ _ hid] at hlook
      have := h id' meta hlook hok
      unfold cacheGet at this ⊢
      exact this
  | del id =>
    intro id' meta hlook hok
    by_cases hid : id' = id
    · subst hid
      simp only [applyOp, cacheDelete] at hlook
      rw [lookupA_eraseA_self] at hlook
      exact absurd hlook (by simp)
    · simp only [applyOp, cacheDelete] at hlook ⊢
      rw [lookupA_eraseA_ne _ hid] at hlook
      have := h id' meta hlook hok
      unfold cacheGet at this ⊢
      simpa [lookupA_eraseA_ne _ hid] using this

theorem okRetrievable_runOps {α : Type} (s : CacheState α)
    (h : okRetrievable s) (ops : List (CacheOp α)) :
    okRetrievable (runOps s ops) := by
  induction ops generalizing s with
  | nil => exact h
  | cons op rest ih => exact ih _ (okRetrievable_applyOp h op)

theorem okRetrievable_empty (α : Type) : okRetrievable (emptyCache α) := by
  intro id meta hlook
  simp [emptyCache, lookupA] at hlook

/-- Membership in the removal list of `cacheCleanup`, for a state with
unique index keys. -/
theorem mem_cleanupIds_iff {α : Type} (s : CacheState α) (now maxAgeMs : Int)
    (hidx : (s.index.map Prod.fst).Nodup) (id : String) (meta : IndexMeta)
    (hmem : lookupA s.index id = some meta) :
    id ∈ (s.index.filter (fun p => now - p.2.ts > maxAgeMs)).map (·.1) ↔
      now - meta.ts > maxAgeMs := by
  constructor
  · intro h
    obtain ⟨q, hq, hqid⟩ := List.mem_map.mp h
    have hqmem : q ∈ s.index := List.mem_of_mem_filter hq
    have hcond : now - q.2.ts > maxAgeMs := by
      have := List.of_mem_filter hq
      simpa using this
    have hpq : q = (id, meta) :=
      eq_of_keysNodup hidx hqmem (lookupA_mem hmem) (by simpa using hqid)
    rw [hpq] at hcond
    exact hcond
  · intro h
    refine List.mem_map.mpr ⟨(id, meta), ?_, rfl⟩
    exact List.mem_filter.mpr ⟨lookupA_mem hmem, by simpa using h⟩

/-! ### Claim theorems: the result cache -/

/-- C5.  Cache round-trip: for every state, messageId and payload,
`set(id, payload)` followed by `get(id)` returns an entry whose payload is
the one given to `set` and whose version is the current schema version
(`CACHE_VERSION`), with the write timestamp. -/
theorem C5_cache_round_trip {α : Type} (s : CacheState α) (id : String)
    (payload : α) (now : Int) :
    cacheGet (cacheSet s id payload now) id
      = some { version := CACHE_VERSION, ts := now, raw := payload } := by
  unfold cacheGet cacheSet
  simp [lookupA_setA_self]

/-- C9.  Stale-version invisibility: `get` and `has` treat a stored entry
whose `version` differs from `CACHE_VERSION` exactly like an absent entry,
and an entry is retrievable iff it exists in the store with the current
version. -/
theorem C9_stale_version_invisible {α : Type} (s : CacheState α) (id : String) :
    (∀ e : CacheEntry α, lookupA s.store id = some e →
      e.version ≠ CACHE_VERSION → cacheGet s id = none ∧ cacheHas s id = false) ∧
    (∀ e : CacheEntry α, cacheGet s id = some e ↔
      lookupA s.store id = some e ∧ e.version = CACHE_VERSION) ∧
    (cacheHas s id = true ↔
      ∃ e : CacheEntry α, lookupA s.store id = some e ∧ e.version = CACHE_VERSION) := by
  refine ⟨?_, fun e => cacheGet_eq_some_iff s id e, cacheHas_eq_true_iff s id⟩
  intro e hl hv
  constructor
  · unfold cacheGet
    rw [hl]
    simp [hv]
  · unfold cacheHas
    rw [hl]
    simp [hv]

/-- The cache state after writing an entry under schema version 2 while
`CACHE_VERSION = 1` (an entry left behind by an older schema, seen from the
current code). -/
def staleDemoState : CacheState Nat :=
  { index := [("m", ⟨5, CacheStatus.ok⟩)], store := [("m", ⟨2, 5, 42⟩)] }

/-- Witness for C9 at a concrete stale entry. -/
theorem C9_witness :
    cacheGet staleDemoState "m" = none ∧ cacheHas staleDemoState "m" = false :=
  (C9_stale_version_invisible staleDemoState "m").1 ⟨2, 5, 42⟩ rfl (by decide)

/-- C1 counterexample: after `set("1", 0)` followed by `setError("1")`, the
index records status error for "1", yet the payload entry written by `set`
is still present and retrievable through `get` — `cacheSetError` writes
only the index and never deletes the payload entry. -/
theorem C1_counterexample :
    lookupA (runOps (emptyCache Nat)
        [CacheOp.set "1" 0 0, CacheOp.setError "1" 1]).index "1"
      = some ⟨1, CacheStatus.error⟩ ∧
    cacheGet (runOps (emptyCache Nat)
        [CacheOp.set "1" 0 0, CacheOp.setError "1" 1]) "1"
      = some ⟨CACHE_VERSION, 0, 0⟩ :=
  ⟨rfl, rfl⟩

/-- C1 (amended).  After any sequence of `set`/`setError`/`delete` calls
from empty storage, every messageId whose index record has status ok has a
retrievable payload entry; a status-error record however does not imply the
absence of a payload entry: `setError` leaves any previously stored entry
in place, so after `set(id, payload)` followed by `setError(id)` the
payload entry remains retrievable. -/
theorem C1_index_consistency_amended :
    (∀ (α : Type) (ops : List (CacheOp α)) (id : String) (meta : IndexMeta),
      lookupA (runOps (emptyCache α) ops).index id = some meta →
      meta.status = CacheStatus.ok →
      (cacheGet (runOps (emptyCache α) ops) id).isSome) ∧
    (∀ (α : Type) (s : CacheState α) (id : String) (payload : α) (n n' : Int),
      cacheGet (cacheSetError (cacheSet s id payload n) id n') id
        = some ⟨CACHE_VERSION, n, payload⟩) := by
  constructor
  · intro α ops id meta hl hok
    exact okRetrievable_runOps (emptyCache α) (okRetrievable_empty α) ops id meta hl hok
  · intro α s id payload n n'
    have hstore : (cacheSetError (cacheSet s id payload n) id n').store
        = (cacheSet s id payload n).store := rfl
    unfold cacheGet
    rw [hstore]
    have := C5_cache_round_trip s id payload n
    unfold cacheGet at this
    exact this

/-- Witness for C1: a single `set` yields an ok record whose entry is
retrievable. -/
theorem C1_witness :
    (cacheGet (runOps (emptyCache Nat) [CacheOp.set "1" 5 0]) "1").isSome :=
  C1_index_consistency_amended.1 Nat [CacheOp.set "1" 5 0] "1"
    ⟨0, CacheStatus.ok⟩ rfl rfl

/-- C8.  `cleanup(maxAgeMs)` removes exactly the index records with
`now - timestamp > maxAgeMs` (for a state with unique index keys), deletes
the payload entries of exactly those ids, leaves every younger entry's
`get` result unchanged, returns the number of removed records, handles an
empty index without change, and on the concrete three-entry state aged
10 minutes / 2 days / 10 days with a 3-day threshold removes exactly the
10-day entry. -/
theorem C8_ttl_cleanup {α : Type} (s : CacheState α) (now maxAgeMs : Int)
    (hidx : (s.index.map Prod.fst).Nodup) :
    ((cacheCleanup s now maxAgeMs).2
      = (s.index.filter (fun p => now - p.2.ts > maxAgeMs)).length) ∧
    (∀ id meta, lookupA (cacheCleanup s now maxAgeMs).1.index id = some meta ↔
      (lookupA s.index id = some meta ∧ ¬ now - meta.ts > maxAgeMs)) ∧
    (∀ id meta, lookupA s.index id = some meta → now - meta.ts > maxAgeMs →
      lookupA (cacheCleanup s now maxAgeMs).1.store id = none) ∧
    (∀ id meta, lookupA s.index id = some meta → ¬ now - meta.ts > maxAgeMs →
      cacheGet (cacheCleanup s now maxAgeMs).1 id = cacheGet s id) ∧
    (s.index = [] → cacheCleanup s now maxAgeMs = (s, 0)) ∧
    ((cacheCleanup cleanupDemoState 864000000 259200000).2 = 1 ∧
      cacheGet (cacheCleanup cleanupDemoState 864000000 259200000).1 "a"
        = some ⟨1, 863400000, 10⟩ ∧
      cacheGet (cacheCleanup cleanupDemoState 864000000 259200000).1 "b"
        = some ⟨1, 691200000, 20⟩ ∧
      cacheGet (cacheCleanup cleanupDemoState 864000000 259200000).1 "c" = none ∧
      lookupA (cacheCleanup cleanupDemoState 864000000 259200000).1.index "c"
        = none) := by
  have hids : ∀ id meta, lookupA s.index id = some meta →
      (id ∈ (s.index.filter (fun p => now - p.2.ts > maxAgeMs)).map (·.1) ↔
        now - meta.ts > maxAgeMs) :=
    fun id meta h => mem_cleanupIds_iff s now maxAgeMs hidx id meta h
  refine ⟨?_, ?_, ?_, ?_, ?_, rfl, rfl, rfl, rfl, rfl⟩
  · unfold cacheCleanup
    by_cases he : ((s.index.filter (fun p => now - p.2.ts > maxAgeMs)).map (·.1)).isEmpty
    · rw [if_pos he]
      have : (s.index.filter (fun p => now - p.2.ts > maxAgeMs)).map (·.1) = [] :=
        List.isEmpty_iff.mp he
      have hlen := congrArg List.length this
      simpa using hlen.symm
    · rw [if_neg he]
      simp
  · intro id meta
    unfold cacheCleanup
    by_cases he : ((s.index.filter (fun p => now - p.2.ts > maxAgeMs)).map (·.1)).isEmpty
    · rw [if_pos he]
      constructor
      · intro h
        refine ⟨h, fun hold => ?_⟩
        have := (hids id meta h).mpr hold
        rw [List.isEmpty_iff.mp he] at this
        simp at this
      · exact fun h => h.1
    · rw [if_neg he]
      constructor
      · intro h
        by_cases hm : id ∈ (s.index.filter (fun p => now - p.2.ts > maxAgeMs)).map (·.1)
        · rw [lookupA_eraseKeys_mem s.index hm] at h
          simp at h
        · rw [lookupA_eraseKeys_not_mem s.index hm] at h
          exact ⟨h, fun hold => hm ((hids id meta h).mpr hold)⟩
      · rintro ⟨h, hyoung⟩
        have hm : ¬ id ∈ (s.index.filter (fun p => now - p.2.ts > maxAgeMs)).map (·.1) :=
          fun hmem => hyoung ((hids id meta h).mp hmem)
        rw [lookupA_eraseKeys_not_mem s.index hm]
        exact h
  · intro id meta h hold
    have hm : id ∈ (s.index.filter (fun p => now - p.2.ts > maxAgeMs)).map (·.1) :=
      (hids id meta h).mpr hold
    have hne : ¬ ((s.index.filter (fun p => now - p.2.ts > maxAgeMs)).map (·.1)).isEmpty := by
      intro he
      rw [List.isEmpty_iff.mp he] at hm
      simp at hm
    unfold cacheCleanup
    rw [if_neg hne]
    exact lookupA_eraseKeys_mem s.store hm
  · intro id meta h hyoung
    have hm : ¬ id ∈ (s.index.filter (fun p => now - p.2.ts > maxAgeMs)).map (·.1) :=
      fun hmem => hyoung ((hids id meta h).mp hmem)
    unfold cacheCleanup
    by_cases he : ((s.index.filter (fun p => now - p.2.ts > maxAgeMs)).map (·.1)).isEmpty
    · rw [if_pos he]
    · rw [if_neg he]
      unfold cacheGet
      rw [lookupA_eraseKeys_not_mem s.store hm]
  · intro h
    unfold cacheCleanup
    simp [h]

/-- Witness for C8 on the concrete demo state: the 10-day entry is removed
and a younger one is untouched. -/
theorem C8_witness :
    lookupA (cacheCleanup cleanupDemoState 864000000 259200000).1.store "c" = none ∧
    cacheGet (cacheCleanup cleanupDemoState 864000000 259200000).1 "b"
      = cacheGet cleanupDemoState "b" := by
  have h := C8_ttl_cleanup cleanupDemoState 864000000 259200000 (by decide)
  exact ⟨h.2.2.1 "c" ⟨0, CacheStatus.ok⟩ rfl (by decide),
    h.2.2.2.1 "b" ⟨691200000, CacheStatus.ok⟩ rfl (by decide)⟩

/-! ### Claim theorems: the work queue -/

/-- A non-force enqueue of an id that is already queued is the early
return: no push, no `scheduleNext`. -/
theorem enqueue_noop {α : Type} (s : BgState α) (id : Nat)
    (h : s.queue.any (fun it => it.messageId = id) = true) :
    bgProcessorEnqueue s id false = (s, []) := by
  unfold bgProcessorEnqueue
  simp [h]

/-- A non-force enqueue of an id not yet queued appends it. -/
theorem enqueue_push {α : Type} (s : BgState α) (id : Nat)
    (h : s.queue.any (fun it => it.messageId = id) = false) :
    (bgProcessorEnqueue s id false).1.queue = s.queue ++ [⟨id, false⟩] := by
  unfold bgProcessorEnqueue
  simp [h]

/-- After a non-force enqueue the id is queued. -/
theorem enqueue_mem {α : Type} (s : BgState α) (id : Nat) :
    (bgProcessorEnqueue s id false).1.queue.any
      (fun it => it.messageId = id) = true := by
  unfold bgProcessorEnqueue
  by_cases h : s.queue.any (fun it => it.messageId = id) = true
  · simp [h]
  · simp only [Bool.not_eq_true] at h
    simp [h]

/-- C4.  Queue dedup: a second non-force enqueue of an id is a no-op on
the whole processor state (the early return fires); starting from a queue
not containing the id, two non-force enqueues leave exactly one slot
holding it (the freshly appended non-force slot); a force enqueue appends a
new slot even when the id is already queued. -/
theorem C4_queue_dedup {α : Type} (s : BgState α) (id : Nat) :
    (bgProcessorEnqueue (bgProcessorEnqueue s id false).1 id false
      = ((bgProcessorEnqueue s id false).1, [])) ∧
    (s.queue.any (fun it => it.messageId = id) = false →
      ((bgProcessorEnqueue (bgProcessorEnqueue s id false).1 id false).1.queue.filter
        (fun it => it.messageId = id)) = [⟨id, false⟩]) ∧
    ((bgProcessorEnqueue s id true).1.queue = s.queue ++ [⟨id, true⟩]) := by
  refine ⟨enqueue_noop _ id (enqueue_mem s id), ?_, ?_⟩
  · intro h
    rw [enqueue_noop _ id (enqueue_mem s id), enqueue_push s id h,
      List.filter_append]
    have hfil : s.queue.filter (fun it => it.messageId = id) = [] := by
      rw [List.filter_eq_nil_iff]
      intro it hit hc
      simp only [decide_eq_true_eq] at hc
      have hany : s.queue.any (fun it => it.messageId = id) = true :=
        List.any_eq_true.mpr ⟨it, hit, by simp [hc]⟩
      rw [h] at hany
      exact Bool.false_ne_true hany
    rw [hfil]
    simp
  · unfold bgProcessorEnqueue
    simp

/-- Witness for C4 from the idle state with an empty queue. -/
theorem C4_witness :
    ((bgProcessorEnqueue (bgProcessorEnqueue
        (⟨[], false, false, true, false, 0, 0, emptyCache Nat⟩ : BgState Nat)
        3 false).1 3 false).1.queue.filter
      (fun it => it.messageId = 3)) = [⟨3, false⟩] :=
  (C4_queue_dedup (⟨[], false, false, true, false, 0, 0, emptyCache Nat⟩ : BgState Nat)
    3).2.1 rfl

/-- C6.  Manual preemption: while `manualActionInFlight` is set, a drain
attempt on an otherwise eligible state (enabled, not paused, not already
processing, nonempty queue) returns at the manual guard with the state
unchanged — no `processing` flag set, no item popped, no inference call —
scheduling only the 1-second re-check. -/
theorem C6_manual_preemption (s : BgState Json) (env : DrainEnv)
    (hm : s.manualActionInFlight = true) (hp : s.processing = false)
    (hpau : s.paused = false) (he : s.enabled = true)
    (hq : s.queue.isEmpty = false) :
    processNextInQueue s env = ⟨s, [⟨1000, TimerAction.drainRetry⟩], false⟩ := by
  unfold processNextInQueue
  rw [hp, hpau, he, hq, hm]
  simp

/-- Witness for C6 at a concrete eligible state with the manual flag set. -/
theorem C6_witness :
    processNextInQueue
        ⟨[⟨7, false⟩], false, false, true, true, 0, 0, emptyCache Json⟩
        ⟨0, true, some "x", some "y"⟩
      = ⟨⟨[⟨7, false⟩], false, false, true, true, 0, 0, emptyCache Json⟩,
          [⟨1000, TimerAction.drainRetry⟩], false⟩ :=
  C6_manual_preemption _ _ rfl rfl rfl rfl rfl

/-- C2.  Pause on inference failure: on an eligible drain (enabled, idle,
not paused, no manual action, cache miss or force, message and body
resolve, body long enough) where the inference call fails, the processor
increments the error counter, leaves the failed item at the head of the
queue before all other items, sets the paused flag, releases the in-flight
`processing` slot, and schedules exactly one un-pause after the fixed
30-second retry delay, whose callback is what clears the paused flag;
while paused, a drain attempt returns at its guard without popping
anything. -/
theorem C2_pause_on_failure (s : BgState Json) (env : DrainEnv)
    (item : QItem) (rest : List QItem)
    (hq : s.queue = item :: rest) (hp : s.processing = false)
    (hpau : s.paused = false) (he : s.enabled = true)
    (hm : s.manualActionInFlight = false)
    (hmiss : item.force = true ∨ cacheHas s.cache (toString item.messageId) = false)
    (hmsg : env.msgExists = true)
    (hbody : ∃ b, env.body = some b ∧ BG_MIN_EMAIL_LENGTH ≤ b.length)
    (hinf : env.inference = none) :
    (processNextInQueue s env).state.errorCount = s.errorCount + 1 ∧
    (processNextInQueue s env).state.queue = item :: rest ∧
    (processNextInQueue s env).state.paused = true ∧
    (processNextInQueue s env).state.processing = false ∧
    (processNextInQueue s env).calledInference = true ∧
    (processNextInQueue s env).timers
      = [⟨BG_RETRY_DELAY_MS, TimerAction.unpauseResume⟩] ∧
    (∀ (s' : BgState Json) (env' : DrainEnv), s'.paused = true →
      processNextInQueue s' env' = ⟨s', [], false⟩) ∧
    (∀ s' : BgState Json, (runUnpauseResume s').1.paused = false) := by
  obtain ⟨b, hb, hlen⟩ := hbody
  have hlen' : ¬ b.length < BG_MIN_EMAIL_LENGTH := Nat.not_lt.mpr hlen
  have hres : processNextInQueue s env
      = ⟨{ s with
            queue := item :: rest
            processing := false
            errorCount := s.errorCount + 1
            paused := true },
          [⟨BG_RETRY_DELAY_MS, TimerAction.unpauseResume⟩], true⟩ := by
    unfold processNextInQueue
    rw [hp, hpau, he, hm, hq, hmsg, hb, hinf]
    rcases hmiss with hforce | hmiss
    · simp [hforce, hlen']
    · simp [hmiss, hlen']
  refine ⟨by rw [hres], by rw [hres], by rw [hres], by rw [hres],
    by rw [hres], by rw [hres], ?_, fun s' => rfl⟩
  intro s' env' hpau'
  unfold processNextInQueue
  rw [hpau']
  simp

/-- Witness for C2 at a concrete single-item state with a failing
inference oracle. -/
theorem C2_witness :
    (processNextInQueue
        ⟨[⟨7, false⟩], false, false, true, false, 0, 0, emptyCache Json⟩
        ⟨0, true, some "aaaaaaaaaaaaaaaaaaaaaaaa", none⟩).state.errorCount = 1 ∧
    (processNextInQueue
        ⟨[⟨7, false⟩], false, false, true, false, 0, 0, emptyCache Json⟩
        ⟨0, true, some "aaaaaaaaaaaaaaaaaaaaaaaa", none⟩).state.queue
      = [⟨7, false⟩] ∧
    (processNextInQueue
        ⟨[⟨7, false⟩], false, false, true, false, 0, 0, emptyCache Json⟩
        ⟨0, true, some "aaaaaaaaaaaaaaaaaaaaaaaa", none⟩).state.paused = true ∧
    (processNextInQueue
        ⟨[⟨7, false⟩], false, false, true, false, 0, 0, emptyCache Json⟩
        ⟨0, true, some "aaaaaaaaaaaaaaaaaaaaaaaa", none⟩).timers
      = [⟨BG_RETRY_DELAY_MS, TimerAction.unpauseResume⟩] := by
  have h := C2_pause_on_failure
    ⟨[⟨7, false⟩], false, false, true, false, 0, 0, emptyCache Json⟩
    ⟨0, true, some "aaaaaaaaaaaaaaaaaaaaaaaa", none⟩
    ⟨7, false⟩ [] rfl rfl rfl rfl rfl (Or.inr rfl) rfl
    ⟨"aaaaaaaaaaaaaaaaaaaaaaaa", rfl, by decide⟩ rfl
  exact ⟨h.1, h.2.1, h.2.2.1, h.2.2.2.2.2.1⟩

/-! ### Claim theorems: JSON repair -/

/-- C3.  Repair salvage on the concrete truncated input
`'\x7b"summary":"ok","events":[\x7b"preview":"Team sync"'`: the repair
function returns a parsed object (the salvage loop succeeds at the full
length with the suffix `\x7d]\x7d`), and that object's `summary` field is
`"ok"`. -/
theorem C3_repair_salvage :
    repairAnalysisJSON "\x7b\"summary\":\"ok\",\"events\":[\x7b\"preview\":\"Team sync\""
      = some (Json.obj [("summary", Json.str "ok"),
          ("events", Json.arr [Json.obj [("preview", Json.str "Team sync")]])]) ∧
    jsGetField (Json.obj [("summary", Json.str "ok"),
          ("events", Json.arr [Json.obj [("preview", Json.str "Team sync")]])])
        "summary"
      = some (Json.str "ok") :=
  ⟨rfl, rfl⟩

/-- C7.  Control-character escaping on the concrete input
`\x7b"body":"line one\nline two"\x7d` containing a literal newline byte
inside the quoted value: `extractJSON` produces text whose newline is the
six-character escape `\u000a`, that text parses, and the parsed `body`
field is `"line one\nline two"` with an actual newline character. -/
theorem C7_repair_escaping :
    extractJSON "\x7b\"body\":\"line one\nline two\"\x7d".data
      = Except.ok "\x7b\"body\":\"line one\\u000aline two\"\x7d".data ∧
    jsonParse "\x7b\"body\":\"line one\\u000aline two\"\x7d"
      = some (Json.obj [("body", Json.str "line one\nline two")]) :=
  ⟨rfl, rfl⟩

/-- `findSome?` only succeeds through one of the list members. -/
theorem findSome?_mem {γ δ : Type} {f : γ → Option δ} :
    ∀ {l : List γ} {b : δ}, l.findSome? f = some b → ∃ a ∈ l, f a = some b := by
  intro l
  induction l with
  | nil => intro b h; simp [List.findSome?] at h
  | cons x rest ih =>
    intro b h
    rw [List.findSome?_cons] at h
    cases hx : f x with
    | some y =>
      rw [hx] at h
      exact ⟨x, List.mem_cons_self x rest, hx.trans h⟩
    | none =>
      rw [hx] at h
      obtain ⟨a, ha, hfa⟩ := ih h
      exact ⟨a, List.mem_cons_of_mem x ha, hfa⟩

/-- A successful `tryClosers` is a successful parse of the slice extended
by one of the closing suffixes. -/
theorem tryClosers_spec {slice : List Char} {v : Json}
    (h : tryClosers slice = some v) :
    ∃ suf ∈ closers, jsonParseList (slice ++ suf.data) = some v := by
  unfold tryClosers at h
  exact findSome?_mem h

/-- A successful salvage loop succeeds through `tryClosers` at some prefix
length `j` reached within the iteration budget `k`. -/
theorem salvageLoop_spec (text : List Char) :
    ∀ (k i : Nat) (v : Json), salvageLoop text k i = some v →
      ∃ j, j ≤ i ∧ i - j < k ∧ tryClosers (text.take j) = some v := by
  intro k
  induction k with
  | zero =>
    intro i v h
    simp [salvageLoop] at h
  | succ k ih =>
    intro i v h
    unfold salvageLoop at h
    cases htry : tryClosers (text.take i) with
    | some w =>
      rw [htry] at h
      obtain rfl : w = v := Option.some.inj h
      exact ⟨i, Nat.le_refl i, by omega, htry⟩
    | none =>
      rw [htry] at h
      obtain ⟨j, hle, hlt, hj⟩ := ih (i - 1) v h
      exact ⟨j, by omega, by omega, hj⟩

/-- C10.  The repair function is total by construction (a fuelled pure
function) and never raises: every value it returns was obtained from a
successful parse (modelling `JSON.parse` guarded by `try`/`catch`) of an
explicit candidate — either the text from the first brace parsed as-is, or
a prefix of it extended by one of the fixed closing suffixes, where the
prefix is cut at most 199 characters from the end of the text (the
200-character lookback window of the backward-salvage scan). -/
theorem C10_repair_total_bounded (raw : String) (v : Json)
    (h : repairAnalysisJSON raw = some v) :
    ∃ cand : List Char, jsonParseList cand = some v ∧
      (cand = repairText raw ∨
        ∃ i suf, suf ∈ closers ∧ i ≤ (repairText raw).length ∧
          (repairText raw).length - i < 200 ∧
          cand = (repairText raw).take i ++ suf.data) := by
  unfold repairAnalysisJSON at h
  by_cases hemp : raw.data.isEmpty
  · simp [hemp] at h
  · simp only [hemp, if_false, Bool.false_eq_true] at h
    cases hidx : indexOfChar raw.data '\x7b' with
    | none =>
      rw [hidx] at h
      simp at h
    | some start =>
      rw [hidx] at h
      dsimp only at h
      have hrt : repairText raw = raw.data.drop start := by
        unfold repairText
        rw [hidx]
      cases hp : jsonParseList (raw.data.drop start) with
      | some w =>
        rw [hp] at h
        obtain rfl : w = v := Option.some.inj h
        exact ⟨raw.data.drop start, hp, Or.inl hrt.symm⟩
      | none =>
        rw [hp] at h
        obtain ⟨j, hle, hlt, htry⟩ :=
          salvageLoop_spec (raw.data.drop start) _ _ v h
        obtain ⟨suf, hsuf, hparse⟩ := tryClosers_spec htry
        refine ⟨(raw.data.drop start).take j ++ suf.data, hparse,
          Or.inr ⟨j, suf, hsuf, ?_, ?_, by rw [hrt]⟩⟩
        · rw [hrt]
          exact hle
        · rw [hrt]
          omega

/-- Witness for C10: a repair that succeeds by parsing from the first
brace after discarding preamble. -/
theorem C10_witness :
    ∃ cand : List Char,
      jsonParseList cand = some (Json.obj [("a", Json.num "2")]) ∧
      (cand = repairText "x\x7b\"a\":2\x7d" ∨
        ∃ i suf, suf ∈ closers ∧ i ≤ (repairText "x\x7b\"a\":2\x7d").length ∧
          (repairText "x\x7b\"a\":2\x7d").length - i < 200 ∧
          cand = (repairText "x\x7b\"a\":2\x7d").take i ++ suf.data) :=
  C10_repair_total_bounded "x\x7b\"a\":2\x7d" (Json.obj [("a", Json.num "2")]) rfl

end ThunderClerk
